import Mathlib

/-!
Verification of the clusterctl management-cluster orchestration core:
the provider upgrader (cmd/clusterctl/client/cluster/upgrader.go), the
object graph (discovery, soft ownership, cluster tenancy), the discovery
type enumeration and the in-memory configuration reader
(cmd/clusterctl/client/config/reader_memory.go).

External collaborators (inventory queries, release-metadata lookups, the
repository client, the components client) enter the definitions as oracle
parameters: the theorems quantify over them, exactly as the Go code
receives them through interfaces. Definitions whose doc comment starts
with "Modelled from the spec:" embed parts of the object graph whose
implementation file is not among the given sources (only its tests are);
they follow the specification's wording for addObject, setSoftOwnership,
setClusterTenants and the instance-name tuple.
-/

namespace Spec2Proof

/-! ## Provider and inventory data model -/

/-- Provider record of the inventory (clusterctl v1alpha4 Provider), with the
fields the upgrader reads: name, type, namespace, version, watched
namespace. -/
structure Provider where
  providerName : String
  providerType : String
  nspace : String
  version : String
  watchedNamespace : String
deriving DecidableEq, Repr

/-- Modelled from the spec: the instance name of a provider is the tuple
(providerName, providerType, namespace); it is unique within an inventory.
Rendered canonically so that equality of instance names is equality of the
tuple. -/
def Provider.instanceName (p : Provider) : String :=
  p.providerType ++ "/" ++ p.nspace ++ "/" ++ p.providerName

/-- Management group: the core provider plus all the providers that share its
contract (the member list includes the core provider itself). -/
structure ManagementGroup where
  coreProvider : Provider
  providers : List Provider
deriving DecidableEq, Repr

/-- Modelled from the spec: lookup of the group member carrying the given
instance name. -/
def ManagementGroup.getProviderByInstanceName (mg : ManagementGroup) (name : String) :
    Option Provider :=
  mg.providers.find? (fun p => decide (p.instanceName = name))

/-! ## Upgrade plans (upgrader.go) -/

/-- UpgradeItem from upgrader.go: a provider and the version to upgrade to;
an empty nextVersion means there is no upgrade available. -/
structure UpgradeItem where
  provider : Provider
  nextVersion : String
deriving DecidableEq, Repr

/-- UpgradeRef of an item is the provider's instance name. -/
def UpgradeItem.instanceName (u : UpgradeItem) : String :=
  u.provider.instanceName

/-- UpgradePlan from upgrader.go: a target contract and one UpgradeItem per
provider of the management group. -/
structure UpgradePlan where
  contract : String
  coreProvider : Provider
  providers : List UpgradeItem
deriving DecidableEq, Repr

/-- isPartialUpgrade from upgrader.go lines 58-66: true when at least one
upgrade item in the plan does not have a target version. -/
def UpgradePlan.isPartialUpgrade (u : UpgradePlan) : Bool :=
  u.providers.any (fun i => decide (i.nextVersion = ""))

/-- The part of getUpgradeInfo's result that Plan consumes for the core
provider: the group's current contract and getContractsForUpgrade's result
(the current contract plus the strictly newer contracts among the core
provider's releases). upgradeinfo.go is not among the given sources, so the
two fields are supplied by an oracle parameter. -/
structure CoreUpgradeInfo where
  currentContract : String
  contractsForUpgrade : List String
deriving DecidableEq, Repr

/-- The distinct failure exits of the upgrader; upgrader.go builds each with
errors.Errorf around the data the constructor carries. -/
inductive UpgraderError where
  | providerNotInGroup (itemName coreName : String)
  | contractMismatch (itemName itemContract targetContract : String)
  | contractLagging (providerName providerContract targetContract : String)
  | oracleFailure (providerName : String)
deriving DecidableEq, Repr

/-- pkg/errors.Wrapf as the source calls it: wrapping a nil error yields a nil
error, whatever the message says. -/
def errorsWrapf (e : Option UpgraderError) (_msg : String) : Option UpgraderError :=
  match e with
  | none => none
  | some err => some err

/-- getUpgradePlan from upgrader.go lines 179-203: one UpgradeItem per group
member, whose nextVersion is getLatestNextVersion of the provider for the
target contract. getUpgradeInfo plus getLatestNextVersion is the oracle
nextVer (empty string when no next version exists). -/
def getUpgradePlan (nextVer : Provider → String → String) (mg : ManagementGroup)
    (contract : String) : UpgradePlan :=
  { contract := contract
    coreProvider := mg.coreProvider
    providers := mg.providers.map (fun p =>
      { provider := p, nextVersion := nextVer p contract }) }

/-- The inner loop of Plan (upgrader.go lines 122-136) over the candidate
contracts of one management group: build the plan for each contract and drop
it when it is partial and requires a contract change. -/
def planContracts (nextVer : Provider → String → String) (mg : ManagementGroup)
    (currentContract : String) (contracts : List String) : List UpgradePlan :=
  contracts.foldl
    (fun ret contract =>
      let upgradePlan := getUpgradePlan nextVer mg contract
      if upgradePlan.isPartialUpgrade ∧ currentContract ≠ contract then ret
      else ret ++ [upgradePlan])
    []

/-- Plan from upgrader.go lines 88-140, recursing over the management groups
with the accumulated plans. The empty-contracts branch mirrors the source
exactly: it executes return nil, errors.Wrapf(err, ...) with err = nil at that
point, and pkg/errors.Wrapf of a nil cause is nil, so Plan exits with a nil
plan slice and a nil error. -/
def planAux (info : Provider → CoreUpgradeInfo) (nextVer : Provider → String → String) :
    List ManagementGroup → List UpgradePlan → Except UpgraderError (List UpgradePlan)
  | [], ret => .ok ret
  | mg :: rest, ret =>
    let coreUpgradeInfo := info mg.coreProvider
    if coreUpgradeInfo.contractsForUpgrade.isEmpty then
      match errorsWrapf none "Invalid metadata: unable to find the API Version of Cluster API (contract) supported by the provider" with
      | some e => .error e
      | none => .ok []
    else
      planAux info nextVer rest
        (ret ++ planContracts nextVer mg coreUpgradeInfo.currentContract
          coreUpgradeInfo.contractsForUpgrade)

/-- Plan entry point: empty accumulator. -/
def Plan (info : Provider → CoreUpgradeInfo) (nextVer : Provider → String → String)
    (managementGroups : List ManagementGroup) : Except UpgraderError (List UpgradePlan) :=
  planAux info nextVer managementGroups []

/-! ## Custom plans (createCustomPlan, upgrader.go lines 222-298) -/

/-- The target core provider version of createCustomPlan lines 235-241: the
next version of the first upgrade item naming the core provider, or the core
provider's current version when no item does. -/
def targetCoreVersion (mg : ManagementGroup) (upgradeItems : List UpgradeItem) : String :=
  match upgradeItems.find? (fun i => decide (i.instanceName = mg.coreProvider.instanceName)) with
  | some i => i.nextVersion
  | none => mg.coreProvider.version

/-- The first loop of createCustomPlan (lines 255-278): match every item with
its group member, query the contract of the item's target version through the
oracle contractOf (getProviderContractByVersion), fail on a contract mismatch,
and carry the member's watchedNamespace into the constructed item. -/
def customPlanItems (contractOf : Provider → String → Except UpgraderError String)
    (mg : ManagementGroup) (targetContract : String) :
    List UpgradeItem → Except UpgraderError (List UpgradeItem)
  | [] => .ok []
  | item :: rest =>
    match mg.getProviderByInstanceName item.instanceName with
    | none => .error (.providerNotInGroup item.instanceName mg.coreProvider.instanceName)
    | some provider =>
      match contractOf provider item.nextVersion with
      | .error e => .error e
      | .ok contract =>
        if contract ≠ targetContract then
          .error (.contractMismatch item.instanceName contract targetContract)
        else
          match customPlanItems contractOf mg targetContract rest with
          | .error e => .error e
          | .ok items =>
            .ok ({ item with
                    provider := { item.provider with
                                    watchedNamespace := provider.watchedNamespace } } :: items)

/-- The shape of one successfully constructed custom-plan item: the user's
item with the watchedNamespace of the matching inventory record carried
over (createCustomPlan lines 272-274). -/
def withCarriedNamespace (mg : ManagementGroup) (item : UpgradeItem) : UpgradeItem :=
  match mg.getProviderByInstanceName item.instanceName with
  | some provider =>
    { item with provider := { item.provider with
                                watchedNamespace := provider.watchedNamespace } }
  | none => item

/-- The second loop of createCustomPlan (lines 280-296): every group member
not named by the upgrade items must already support the target contract at
its current version, else the upgrade fails with the contract-lagging
error naming that member. -/
def checkLaggingProviders (contractOf : Provider → String → Except UpgraderError String)
    (targetContract : String) (upgradeNames : List String) :
    List Provider → Except UpgraderError Unit
  | [] => .ok ()
  | provider :: rest =>
    if provider.instanceName ∈ upgradeNames then
      checkLaggingProviders contractOf targetContract upgradeNames rest
    else
      match contractOf provider provider.version with
      | .error e => .error e
      | .ok contract =>
        if contract ≠ targetContract then
          .error (.contractLagging provider.instanceName contract targetContract)
        else
          checkLaggingProviders contractOf targetContract upgradeNames rest

/-- createCustomPlan from upgrader.go lines 222-298, over an already retrieved
management group: derive the target contract from the core provider's target
version (its current version when the core is not among the items), build the
item list while checking contract consistency, then check the remaining group
members for contract lagging. -/
def createCustomPlan (contractOf : Provider → String → Except UpgraderError String)
    (mg : ManagementGroup) (upgradeItems : List UpgradeItem) :
    Except UpgraderError UpgradePlan :=
  match contractOf mg.coreProvider (targetCoreVersion mg upgradeItems) with
  | .error e => .error e
  | .ok targetContract =>
    match customPlanItems contractOf mg targetContract upgradeItems with
    | .error e => .error e
    | .ok items =>
      match checkLaggingProviders contractOf targetContract
          (upgradeItems.map (fun i => i.instanceName)) mg.providers with
      | .error e => .error e
      | .ok _ =>
        .ok { contract := targetContract, coreProvider := mg.coreProvider, providers := items }

/-! ## Upgrade execution (doUpgrade, upgrader.go lines 344-372) -/

/-- The remote effects doUpgrade performs, in order: fetch the provider's
component bundle for the target version, delete the running provider with the
two include flags, install the new components (which also updates the
inventory record). -/
inductive UpgradeAction where
  | fetchComponents (item : UpgradeItem)
  | deleteProvider (p : Provider) (includeNamespace includeCRDs : Bool)
  | installComponents (item : UpgradeItem)
deriving DecidableEq, Repr

/-- doUpgrade from upgrader.go lines 344-372 with its three collaborators as
oracles. The result is the ordered list of remote actions performed together
with the first error met, if any: an item with an empty nextVersion is
skipped, the delete always passes IncludeNamespace = false and
IncludeCRDs = false, and the first failing step stops the whole loop. -/
def doUpgrade {E : Type} (fetch : UpgradeItem → Except E Unit)
    (deleteProvider : Provider → Bool → Bool → Except E Unit)
    (install : UpgradeItem → Except E Unit) :
    List UpgradeItem → List UpgradeAction × Option E
  | [] => ([], none)
  | item :: rest =>
    if item.nextVersion = "" then doUpgrade fetch deleteProvider install rest
    else
      match fetch item with
      | .error e => ([.fetchComponents item], some e)
      | .ok _ =>
        match deleteProvider item.provider false false with
        | .error e =>
          ([.fetchComponents item, .deleteProvider item.provider false false], some e)
        | .ok _ =>
          match install item with
          | .error e =>
            ([.fetchComponents item, .deleteProvider item.provider false false,
              .installComponents item], some e)
          | .ok _ =>
            let r := doUpgrade fetch deleteProvider install rest
            (.fetchComponents item :: .deleteProvider item.provider false false ::
              .installComponents item :: r.1, r.2)

/-- ApplyCustomPlan from upgrader.go lines 162-175: build the custom plan,
then execute it; a createCustomPlan error is returned as is. -/
def applyCustomPlan {E : Type} (contractOf : Provider → String → Except UpgraderError String)
    (fetch : UpgradeItem → Except E Unit)
    (deleteProvider : Provider → Bool → Bool → Except E Unit)
    (install : UpgradeItem → Except E Unit)
    (mg : ManagementGroup) (upgradeItems : List UpgradeItem) :
    Except UpgraderError (List UpgradeAction × Option E) :=
  match createCustomPlan contractOf mg upgradeItems with
  | .error e => .error e
  | .ok upgradePlan => .ok (doUpgrade fetch deleteProvider install upgradePlan.providers)

/-! ## Discovery types (getDetachedTypesList of the object-graph tests) -/

/-- One version of a custom resource definition: its name and whether it is
the storage version (served is carried along but not read here). -/
structure CRDVersion where
  name : String
  served : Bool
  storage : Bool
deriving DecidableEq, Repr

/-- The fields of a custom resource definition the discovery enumeration
reads: group, kind, scope and the version list. -/
structure CRD where
  group : String
  kind : String
  scope : String
  versions : List CRDVersion
deriving DecidableEq, Repr

/-- One (APIVersion, Kind, scope) discovery entry. -/
structure DiscoveryTypeMeta where
  kind : String
  apiVersion : String
  scope : String
deriving DecidableEq, Repr

/-- metav1.GroupVersion.String: group slash version, or the bare version when
the group is empty (so the core v1 group renders as v1). -/
def groupVersionString (group ver : String) : String :=
  if group = "" then ver else group ++ "/" ++ ver

/-- getDetachedTypesList from the object-graph test file: one discovery entry
per storage version of every custom resource definition (non-storage versions
are skipped by the continue), then the fixed v1 Secret and v1 ConfigMap
namespaced entries. getDiscoveryTypes builds the same set from the custom
resource definitions installed in the cluster. -/
def getDetachedTypesList (crds : List CRD) : List DiscoveryTypeMeta :=
  (crds.flatMap (fun crd =>
    crd.versions.filterMap (fun v =>
      if v.storage then
        some { kind := crd.kind
               apiVersion := groupVersionString crd.group v.name
               scope := crd.scope }
      else none)))
  ++ [{ kind := "Secret", apiVersion := "v1", scope := "Namespaced" },
      { kind := "ConfigMap", apiVersion := "v1", scope := "Namespaced" }]

/-! ## MemoryReader (reader_memory.go) -/

/-- MemoryReader from reader_memory.go with the field the two readers use:
the variables map, as an association list (vars stands for the Go field
variables, whose name Lean reserves). -/
structure MemoryReader where
  vars : List (String × String)
deriving DecidableEq, Repr

/-- Get from reader_memory.go lines 46-51: the stored value, or the
is-not-set error for a key that was never set. -/
def MemoryReader.Get (f : MemoryReader) (key : String) : Except String String :=
  match f.vars.lookup key with
  | some val => .ok val
  | none => .error ("value for variable " ++ key ++ " is not set")

/-- UnmarshalKey from reader_memory.go lines 57-63: when Get fails the
function returns nil without touching rawval; otherwise it unmarshals the
stored data into rawval. The yaml step is the oracle unmarshal; the returned
value stands for rawval after the call. -/
def MemoryReader.UnmarshalKey {α : Type} (unmarshal : String → α → Except String α)
    (f : MemoryReader) (key : String) (rawval : α) : Except String α :=
  match f.Get key with
  | .error _ => .ok rawval
  | .ok data => unmarshal data rawval

/-! ## Object graph: nodes, addObject, soft ownership, cluster tenants -/

/-- Object identity of a graph node: (APIVersion, Kind, Namespace, Name) plus
the server-assigned UID. -/
structure NodeIdentity where
  apiVersion : String
  kind : String
  nspace : String
  name : String
  uid : String
deriving DecidableEq, Repr

/-- Modelled from the spec: isCluster holds for the core cluster type,
computed from (APIVersion, Kind). -/
def computeIsCluster (apiVersion kind : String) : Bool :=
  decide (apiVersion = "cluster.x-k8s.io/v1alpha3") && decide (kind = "Cluster")

/-- Modelled from the spec: isSecret holds for the core v1 Secret type,
computed from (APIVersion, Kind). -/
def computeIsSecret (apiVersion kind : String) : Bool :=
  decide (apiVersion = "v1") && decide (kind = "Secret")

/-- One node of the object graph: identity, the virtual flag, owners and soft
owners as sets of UIDs resolved through the node arena, the type flags and the
tenant clusters (UIDs of cluster nodes). -/
structure GNode where
  identity : NodeIdentity
  virtual : Bool
  owners : List String
  softOwners : List String
  isCluster : Bool
  isSecret : Bool
  tenantClusters : List String
deriving DecidableEq, Repr

/-- The UIDs of the graph's nodes, in arena order. -/
def uidsOf (g : List GNode) : List String :=
  g.map (fun n => n.identity.uid)

/-- The node carrying the given UID (the first one, when the one-node-per-UID
invariant is broken). -/
def findUid (g : List GNode) (u : String) : Option GNode :=
  g.find? (fun n => decide (n.identity.uid = u))

/-- An owner reference attached to an object: (APIVersion, Kind, Name, UID). -/
structure OwnerRef where
  apiVersion : String
  kind : String
  name : String
  uid : String
deriving DecidableEq, Repr

/-- A discovered object as addObject receives it: identity fields plus its
owner references. -/
structure UObject where
  apiVersion : String
  kind : String
  nspace : String
  name : String
  uid : String
  ownerReferences : List OwnerRef
deriving DecidableEq, Repr

/-- The non-virtual node a directly observed object becomes: attributes from
the object, owners the UIDs of its owner references. -/
def nodeForObj (o : UObject) : GNode :=
  { identity := ⟨o.apiVersion, o.kind, o.nspace, o.name, o.uid⟩
    virtual := false
    owners := o.ownerReferences.map (fun r => r.uid)
    softOwners := []
    isCluster := computeIsCluster o.apiVersion o.kind
    isSecret := computeIsSecret o.apiVersion o.kind
    tenantClusters := [] }

/-- The virtual placeholder node created for an owner reference whose target
has not been observed yet: attributes from the reference, the namespace
inherited from the referencing object. -/
def virtualNodeForRef (nspace : String) (r : OwnerRef) : GNode :=
  { identity := ⟨r.apiVersion, r.kind, nspace, r.name, r.uid⟩
    virtual := true
    owners := []
    softOwners := []
    isCluster := computeIsCluster r.apiVersion r.kind
    isSecret := computeIsSecret r.apiVersion r.kind
    tenantClusters := [] }

/-- Modelled from the spec (4.3.2 addObject), first half: when a node with
the object's UID exists (a virtual placeholder created from an owner
reference), promote it, clearing the virtual flag and filling in the
attributes; otherwise insert a new non-virtual node. -/
def upsertNode (g : List GNode) (o : UObject) : List GNode :=
  if g.any (fun n => decide (n.identity.uid = o.uid)) then
    g.map (fun n => if n.identity.uid = o.uid then nodeForObj o else n)
  else g ++ [nodeForObj o]

/-- Modelled from the spec (4.3.2 addObject), second half: every owner
reference whose UID is not in the graph yet gets a virtual placeholder
node. -/
def ensureRefNodes (nspace : String) (refs : List OwnerRef) (g : List GNode) :
    List GNode :=
  refs.foldl
    (fun acc r =>
      if acc.any (fun n => decide (n.identity.uid = r.uid)) then acc
      else acc ++ [virtualNodeForRef nspace r])
    g

/-- Modelled from the spec (4.3.2 addObject): upsert the observed object's
node, then materialise its owner references; the reference UIDs are the
object node's owners (set inside nodeForObj). -/
def addObj (g : List GNode) (o : UObject) : List GNode :=
  ensureRefNodes o.nspace o.ownerReferences (upsertNode g o)

/-- Modelled from the spec: the configured soft-owner suffix set. -/
def softOwnerSuffixes : List String := ["ca", "etcd-ca", "proxy-ca", "sa"]

/-- Modelled from the spec (4.3.3): a cluster node matches a secret node when
the two share a namespace and the secret's name is the cluster's name, a dash
and one of the configured suffixes. -/
def clusterMatchesSecret (cluster secret : GNode) : Bool :=
  decide (cluster.identity.nspace = secret.identity.nspace) &&
    softOwnerSuffixes.any (fun sfx =>
      decide (secret.identity.name = cluster.identity.name ++ "-" ++ sfx))

/-- The cluster nodes of the graph matching the given secret by the soft
ownership naming rule. -/
def matchingClusters (g : List GNode) (secret : GNode) : List GNode :=
  g.filter (fun c => c.isCluster && clusterMatchesSecret c secret)

/-- Modelled from the spec: greedy choice of the matching cluster with the
longest name (the head wins a tie, and the theorems assume cluster names are
unique per namespace, which makes the maximum unique). -/
def pickLongest : List GNode → Option GNode
  | [] => none
  | n :: rest =>
    match pickLongest rest with
    | none => some n
    | some m =>
      if m.identity.name.length > n.identity.name.length then some m else some n

/-- The per-node step of setSoftOwnership: a secret node that matches some
cluster gains the longest matching cluster among its soft owners; every other
node is left unchanged. -/
def applySoftOwnership (g : List GNode) (n : GNode) : GNode :=
  if n.isSecret then
    match pickLongest (matchingClusters g n) with
    | some c => { n with softOwners := n.softOwners ++ [c.identity.uid] }
    | none => n
  else n

/-- Modelled from the spec (4.3.3 setSoftOwnership): for every Secret node
whose name is a cluster's name, a dash and a configured suffix, with the
cluster in the same namespace, add the cluster to the secret's soft owners;
matching is greedy on the longest cluster name. -/
def setSoftOwnership (g : List GNode) : List GNode :=
  g.map (applySoftOwnership g)

/-! ## Cluster tenancy (setClusterTenants) -/

/-- The UIDs of the graph's nodes as a finite set. -/
def nodeUidSet (g : List GNode) : Finset String :=
  (uidsOf g).toFinset

/-- The owner and soft-owner UIDs of the node carrying the given UID (empty
when the UID is not in the graph). -/
def ownerUidsOf (g : List GNode) (u : String) : List String :=
  match findUid g u with
  | some n => n.owners ++ n.softOwners
  | none => []

/-- One upward ownership step: b is an owner or a soft owner of the node a. -/
def ownerEdge (g : List GNode) (a b : String) : Prop :=
  b ∈ ownerUidsOf g a

/-- Modelled from the spec (4.3.4): one breadth-first expansion step, adding
every node one of whose owners or soft owners is already in the set (that is,
following reverse edges out of the set). -/
def expandTenants (g : List GNode) (s : Finset String) : Finset String :=
  s ∪ (nodeUidSet g).filter (fun u => ∃ v ∈ ownerUidsOf g u, v ∈ s)

/-- expandTenants iterated a fixed number of times. -/
def iterExpand (g : List GNode) : Nat → Finset String → Finset String
  | 0, s => s
  | fuel + 1, s => iterExpand g fuel (expandTenants g s)

/-- Modelled from the spec (4.3.4): the breadth-first closure of a starting
set under expandTenants; one more iteration than there are node UIDs always
reaches the fixed point. -/
def reachClosure (g : List GNode) (s : Finset String) : Finset String :=
  iterExpand g ((nodeUidSet g).card + 1) s

/-- Modelled from the spec (4.3.4 setClusterTenants): beginning with every
node whose isCluster flag is set, follow reverse owner and soft-owner edges
breadth-first, adding the cluster to each reached node's tenantClusters; a
cluster starts as the sole tenant of itself, and a node reached from several
clusters keeps them all. Extensionally each node's tenantClusters is the list
of cluster nodes whose closure reaches the node. -/
def tenantsFor (g : List GNode) (u : String) : List String :=
  ((g.filter (fun c => c.isCluster)).filter
    (fun c => u ∈ reachClosure g ({c.identity.uid} : Finset String))).map
    (fun c => c.identity.uid)

/-- setClusterTenants itself: every node's tenantClusters becomes the cluster
list computed by tenantsFor. -/
def setClusterTenants (g : List GNode) : List GNode :=
  g.map (fun n => { n with tenantClusters := tenantsFor g n.identity.uid })

/-! ## Concrete inputs used by the witnesses and counterexample evaluations -/

/-- The core cluster-api provider at v0.3.10, as in scenario S3. -/
def coreS3 : Provider :=
  { providerName := "cluster-api", providerType := "CoreProvider",
    nspace := "capi-system", version := "v0.3.10", watchedNamespace := "" }

/-- The kubeadm bootstrap provider at v0.3.9, as in scenario S3. -/
def bootstrapS3 : Provider :=
  { providerName := "kubeadm", providerType := "BootstrapProvider",
    nspace := "capi-kubeadm-bootstrap-system", version := "v0.3.9",
    watchedNamespace := "" }

/-- The infrastructure provider at v0.5.4, as in scenario S3. -/
def infraS3 : Provider :=
  { providerName := "aws", providerType := "InfrastructureProvider",
    nspace := "capa-system", version := "v0.5.4", watchedNamespace := "ns-watched" }

/-- The S3 management group: core, bootstrap and infrastructure providers. -/
def groupS3 : ManagementGroup :=
  { coreProvider := coreS3, providers := [coreS3, bootstrapS3, infraS3] }

/-- Release metadata of scenario S3/S4 as a getProviderContractByVersion
oracle: the v0.4.x versions of core and bootstrap support v1alpha4,
everything else v1alpha3. -/
def contractOfS3 (p : Provider) (ver : String) : Except UpgraderError String :=
  if p.providerName = "cluster-api" ∧ ver = "v0.4.1" then .ok "v1alpha4"
  else if p.providerName = "kubeadm" ∧ ver = "v0.4.0" then .ok "v1alpha4"
  else if ver = "" then .error (.oracleFailure p.instanceName)
  else .ok "v1alpha3"

/-- The getLatestNextVersion oracle of scenario S3: for v1alpha4, core has
v0.4.1 and bootstrap v0.4.0 while the infrastructure provider has nothing
newer; no provider has a newer v1alpha3 release. -/
def nextVerS3 (p : Provider) (contract : String) : String :=
  if contract = "v1alpha4" ∧ p.providerName = "cluster-api" then "v0.4.1"
  else if contract = "v1alpha4" ∧ p.providerName = "kubeadm" then "v0.4.0"
  else ""

/-- The core upgrade info of scenario S3: current contract v1alpha3, with
v1alpha4 available from the core provider's newer releases. -/
def infoS3 (_p : Provider) : CoreUpgradeInfo :=
  { currentContract := "v1alpha3", contractsForUpgrade := ["v1alpha3", "v1alpha4"] }

/-- The S4 user request: upgrade core to v0.4.1 and bootstrap to v0.4.0,
leaving the lagging infrastructure provider out. -/
def itemsS4 : List UpgradeItem :=
  [{ provider := coreS3, nextVersion := "v0.4.1" },
   { provider := bootstrapS3, nextVersion := "v0.4.0" }]

/-- A machine whose owner reference points at a MachineSet not yet observed,
as in scenario S6. -/
def machineS6 : UObject :=
  { apiVersion := "cluster.x-k8s.io/v1alpha3", kind := "Machine", nspace := "ns1",
    name := "m1", uid := "u1",
    ownerReferences := [{ apiVersion := "cluster.x-k8s.io/v1alpha3",
                          kind := "MachineSet", name := "ms1", uid := "u2" }] }

/-- The MachineSet the machine's owner reference points at, observed directly,
as in scenario S6. -/
def machineSetS6 : UObject :=
  { apiVersion := "cluster.x-k8s.io/v1alpha3", kind := "MachineSet", nspace := "ns1",
    name := "ms1", uid := "u2", ownerReferences := [] }

/-- The cluster node ns1/foo-bar of scenario S5. -/
def clusterS5 : GNode :=
  { identity := ⟨"cluster.x-k8s.io/v1alpha3", "Cluster", "ns1", "foo-bar", "c1"⟩,
    virtual := false, owners := [], softOwners := [],
    isCluster := true, isSecret := false, tenantClusters := [] }

/-- A second cluster node ns1/foo, coexisting with foo-bar. -/
def clusterFooS5 : GNode :=
  { identity := ⟨"cluster.x-k8s.io/v1alpha3", "Cluster", "ns1", "foo", "c2"⟩,
    virtual := false, owners := [], softOwners := [],
    isCluster := true, isSecret := false, tenantClusters := [] }

/-- The secret ns1/foo-bar-ca of scenario S5, with no explicit owner. -/
def caSecretS5 : GNode :=
  { identity := ⟨"v1", "Secret", "ns1", "foo-bar-ca", "s1"⟩,
    virtual := false, owners := [], softOwners := [],
    isCluster := false, isSecret := true, tenantClusters := [] }

/-- The secret ns1/foo-bar-kubeconfig of scenario S5, with its explicit
owner reference to the cluster. -/
def kubeconfigSecretS5 : GNode :=
  { identity := ⟨"v1", "Secret", "ns1", "foo-bar-kubeconfig", "s2"⟩,
    virtual := false, owners := ["c1"], softOwners := [],
    isCluster := false, isSecret := true, tenantClusters := [] }

/-- The S5 graph: the two clusters and the two secrets of foo-bar. -/
def graphS5 : List GNode :=
  [clusterS5, clusterFooS5, caSecretS5, kubeconfigSecretS5]

/-! ## Helper lemmas -/

/-- A filterMap whose function is an if-then-some-else-none is the filter
followed by the map. -/
theorem filterMap_ite_eq_map_filter {α β : Type} (f : α → β) (p : α → Bool)
    (l : List α) :
    l.filterMap (fun v => if p v then some (f v) else none) = (l.filter p).map f := by
  induction l with
  | nil => rfl
  | cons x xs ih =>
    by_cases h : p x = true <;>
      simp [List.filterMap_cons, List.filter_cons, h, ih]

/-- The length of a flatMap is the sum of the mapped lengths. -/
theorem length_flatMap_eq_sum {α β : Type} (f : α → List β) (l : List α) :
    (l.flatMap f).length = (l.map (fun a => (f a).length)).sum := by
  induction l with
  | nil => rfl
  | cons x xs ih => simp [List.flatMap_cons, ih]

/-! ## Claim theorems: discovery types, memory reader, upgrader -/

/-- C5: getDiscoveryTypes returns exactly one (APIVersion, Kind, scope) entry
per storage version of each installed custom resource definition, excludes
every non-storage version, and always appends the fixed v1 Secret and v1
ConfigMap namespaced entries: membership in getDetachedTypesList is exactly
coming from a storage version or being one of the two fixed entries, and the
list's length is the total number of storage versions plus two. -/
theorem getDetachedTypesList_storage_versions (crds : List CRD) :
    (∀ t, t ∈ getDetachedTypesList crds ↔
        ((∃ crd ∈ crds, ∃ v ∈ crd.versions, v.storage = true ∧
            t = { kind := crd.kind, apiVersion := groupVersionString crd.group v.name,
                  scope := crd.scope }) ∨
          t = { kind := "Secret", apiVersion := "v1", scope := "Namespaced" } ∨
          t = { kind := "ConfigMap", apiVersion := "v1", scope := "Namespaced" })) ∧
    (getDetachedTypesList crds).length =
      (crds.map (fun crd => (crd.versions.filter (fun v => v.storage)).length)).sum
        + 2 := by
  have hrw : getDetachedTypesList crds =
      (crds.flatMap (fun crd =>
        (crd.versions.filter (fun v => v.storage)).map (fun v =>
          { kind := crd.kind, apiVersion := groupVersionString crd.group v.name,
            scope := crd.scope }))) ++
      [{ kind := "Secret", apiVersion := "v1", scope := "Namespaced" },
       { kind := "ConfigMap", apiVersion := "v1", scope := "Namespaced" }] := by
    unfold getDetachedTypesList
    congr 1
    exact List.flatMap_congr (fun crd _ => filterMap_ite_eq_map_filter _ _ _)
  constructor
  · intro t
    rw [hrw]
    simp only [List.mem_append, List.mem_flatMap, List.mem_map, List.mem_filter,
      List.mem_cons, List.mem_singleton, List.not_mem_nil, or_false]
    constructor
    · rintro (⟨crd, hcrd, v, ⟨hv, hst⟩, ht⟩ | h | h)
      · exact Or.inl ⟨crd, hcrd, v, hv, hst, ht.symm⟩
      · exact Or.inr (Or.inl h)
      · exact Or.inr (Or.inr h)
    · rintro (⟨crd, hcrd, v, hv, hst, ht⟩ | h | h)
      · exact Or.inl ⟨crd, hcrd, v, ⟨hv, hst⟩, ht.symm⟩
      · exact Or.inr (Or.inl h)
      · exact Or.inr (Or.inr h)
  · rw [hrw]
    rw [List.length_append, length_flatMap_eq_sum]
    simp

/-- C10: for a key never set in a MemoryReader, UnmarshalKey returns success
without touching the supplied output value (the Get error is swallowed by the
return nil branch), while Get on the same key returns the is-not-set error. -/
theorem UnmarshalKey_unset_key {α : Type} (unmarshal : String → α → Except String α)
    (f : MemoryReader) (key : String) (rawval : α)
    (h : f.vars.lookup key = none) :
    MemoryReader.UnmarshalKey unmarshal f key rawval = Except.ok rawval ∧
      f.Get key = Except.error ("value for variable " ++ key ++ " is not set") := by
  have hget : f.Get key =
      Except.error ("value for variable " ++ key ++ " is not set") := by
    unfold MemoryReader.Get
    rw [h]
  refine ⟨?_, hget⟩
  unfold MemoryReader.UnmarshalKey
  rw [hget]

/-- C10 witness: the empty reader at the key providers. -/
theorem UnmarshalKey_unset_key_witness :
    MemoryReader.UnmarshalKey (fun _ n => Except.ok n) ⟨[]⟩ "providers" (0 : Nat) =
        Except.ok 0 ∧
      MemoryReader.Get ⟨[]⟩ "providers" =
        Except.error ("value for variable " ++ "providers" ++ " is not set") :=
  UnmarshalKey_unset_key (fun _ n => Except.ok n) ⟨[]⟩ "providers" 0 rfl

/-- C9: evaluating Plan at a management group whose core provider metadata
yields an empty contractsForUpgrade: the source executes return nil,
errors.Wrapf(err, ...) with err equal to nil at that point, pkg/errors.Wrapf
of a nil cause is nil, and so Plan succeeds with no plans and no error
instead of returning the intended populated invalid-metadata error. -/
theorem Plan_empty_contracts_silent_success :
    Plan (fun _ => { currentContract := "v1alpha3", contractsForUpgrade := [] })
      nextVerS3 [groupS3] = Except.ok [] := rfl

/-- C8: doUpgrade walks the plan's items in order; an item with an empty
nextVersion performs nothing; a processed item fetches its components,
deletes the running provider always with IncludeNamespace and IncludeCRDs
false (so its namespace and CRDs are left in place), then installs; the first
error of any step is returned as is and nothing of the remaining items
runs. -/
theorem doUpgrade_frame_and_abort {E : Type} (fetch : UpgradeItem → Except E Unit)
    (del : Provider → Bool → Bool → Except E Unit)
    (install : UpgradeItem → Except E Unit) :
    (∀ item rest, item.nextVersion = "" →
        doUpgrade fetch del install (item :: rest) =
          doUpgrade fetch del install rest) ∧
    (∀ plan p b1 b2,
        UpgradeAction.deleteProvider p b1 b2 ∈ (doUpgrade fetch del install plan).1 →
        b1 = false ∧ b2 = false) ∧
    (∀ item rest e, item.nextVersion ≠ "" → fetch item = .error e →
        doUpgrade fetch del install (item :: rest) =
          ([.fetchComponents item], some e)) ∧
    (∀ item rest e, item.nextVersion ≠ "" → fetch item = .ok () →
        del item.provider false false = .error e →
        doUpgrade fetch del install (item :: rest) =
          ([.fetchComponents item, .deleteProvider item.provider false false],
            some e)) ∧
    (∀ item rest e, item.nextVersion ≠ "" → fetch item = .ok () →
        del item.provider false false = .ok () → install item = .error e →
        doUpgrade fetch del install (item :: rest) =
          ([.fetchComponents item, .deleteProvider item.provider false false,
            .installComponents item], some e)) ∧
    (∀ item rest, item.nextVersion ≠ "" → fetch item = .ok () →
        del item.provider false false = .ok () → install item = .ok () →
        doUpgrade fetch del install (item :: rest) =
          (.fetchComponents item :: .deleteProvider item.provider false false ::
              .installComponents item :: (doUpgrade fetch del install rest).1,
            (doUpgrade fetch del install rest).2)) := by
  refine ⟨?_, ?_, ?_, ?_, ?_, ?_⟩
  · intro item rest h
    simp [doUpgrade, h]
  · intro plan
    induction plan with
    | nil =>
      intro p b1 b2 hmem
      simp [doUpgrade] at hmem
    | cons item rest ih =>
      intro p b1 b2 hmem
      by_cases h : item.nextVersion = ""
      · rw [show doUpgrade fetch del install (item :: rest) =
            doUpgrade fetch del install rest by simp [doUpgrade, h]] at hmem
        exact ih p b1 b2 hmem
      · rcases hf : fetch item with e | u
        · rw [show doUpgrade fetch del install (item :: rest) =
              ([.fetchComponents item], some e) by simp [doUpgrade, h, hf]] at hmem
          simp at hmem
        · rcases hd : del item.provider false false with e | u'
          · rw [show doUpgrade fetch del install (item :: rest) =
                ([.fetchComponents item,
                  .deleteProvider item.provider false false], some e) by
                simp [doUpgrade, h, hf, hd]] at hmem
            simp at hmem
            rcases hmem with ⟨hp, h1, h2⟩
            exact ⟨h1, h2⟩
          · rcases hi : install item with e | u''
            · rw [show doUpgrade fetch del install (item :: rest) =
                  ([.fetchComponents item,
                    .deleteProvider item.provider false false,
                    .installComponents item], some e) by
                  simp [doUpgrade, h, hf, hd, hi]] at hmem
              simp at hmem
              rcases hmem with ⟨hp, h1, h2⟩
              exact ⟨h1, h2⟩
            · rw [show doUpgrade fetch del install (item :: rest) =
                  (.fetchComponents item ::
                      .deleteProvider item.provider false false ::
                      .installComponents item ::
                      (doUpgrade fetch del install rest).1,
                    (doUpgrade fetch del install rest).2) by
                  simp [doUpgrade, h, hf, hd, hi]] at hmem
              simp at hmem
              rcases hmem with (⟨hp, h1, h2⟩ | hrest)
              · exact ⟨h1, h2⟩
              · exact ih p b1 b2 hrest
  · intro item rest e h hf
    simp [doUpgrade, h, hf]
  · intro item rest e h hf hd
    simp [doUpgrade, h, hf, hd]
  · intro item rest e h hf hd hi
    simp [doUpgrade, h, hf, hd, hi]
  · intro item rest h hf hd hi
    simp [doUpgrade, h, hf, hd, hi]

/-- The per-group loop of Plan as a filter plus a map: a contract survives
exactly when its plan is not a partial contract switch. -/
theorem planContracts_eq_filter (nextVer : Provider → String → String)
    (mg : ManagementGroup) (cur : String) (contracts : List String) :
    planContracts nextVer mg cur contracts =
      (contracts.filter (fun c =>
        !((getUpgradePlan nextVer mg c).isPartialUpgrade && decide (cur ≠ c)))).map
        (getUpgradePlan nextVer mg) := by
  unfold planContracts
  suffices h : ∀ acc : List UpgradePlan,
      contracts.foldl
        (fun ret contract =>
          let upgradePlan := getUpgradePlan nextVer mg contract
          if upgradePlan.isPartialUpgrade ∧ cur ≠ contract then ret
          else ret ++ [upgradePlan])
        acc =
      acc ++ (contracts.filter (fun c =>
        !((getUpgradePlan nextVer mg c).isPartialUpgrade && decide (cur ≠ c)))).map
        (getUpgradePlan nextVer mg) by
    simpa using h []
  induction contracts with
  | nil => intro acc; simp
  | cons c cs ih =>
    intro acc
    by_cases hc : (getUpgradePlan nextVer mg c).isPartialUpgrade = true ∧ cur ≠ c
    · have hb : ((getUpgradePlan nextVer mg c).isPartialUpgrade &&
          decide (cur ≠ c)) = true := by
        simp [hc.1, hc.2]
      simp only [List.foldl_cons, List.filter_cons, hb]
      rw [if_pos hc]
      simpa using ih acc
    · have hb : ((getUpgradePlan nextVer mg c).isPartialUpgrade &&
          decide (cur ≠ c)) = false := by
        cases hp : (getUpgradePlan nextVer mg c).isPartialUpgrade with
        | false => simp
        | true =>
          have hcc : ¬ (cur ≠ c) := fun hne => hc ⟨hp, hne⟩
          simp [hcc]
      simp only [List.foldl_cons, List.filter_cons, hb]
      rw [if_neg hc]
      rw [ih (acc ++ [getUpgradePlan nextVer mg c])]
      simp

/-- Membership of a candidate plan in its own group's surviving plans is
exactly the negation of the partial-contract-switch condition. -/
theorem mem_planContracts_iff (nextVer : Provider → String → String)
    (mg : ManagementGroup) (cur : String) (contracts : List String)
    (contract : String) (hmem : contract ∈ contracts) :
    (getUpgradePlan nextVer mg contract ∈ planContracts nextVer mg cur contracts ↔
      ¬((getUpgradePlan nextVer mg contract).isPartialUpgrade = true ∧
        cur ≠ contract)) := by
  rw [planContracts_eq_filter]
  constructor
  · intro hin
    rcases List.mem_map.mp hin with ⟨c, hc, heq⟩
    have hceq : c = contract := by
      have := congrArg UpgradePlan.contract heq
      simpa [getUpgradePlan] using this
    subst hceq
    rcases List.mem_filter.mp hc with ⟨_, hcond⟩
    intro hcontra
    rw [heq] at hcond
    simp [hcontra.1, hcontra.2] at hcond
  · intro hcond
    refine List.mem_map.mpr ⟨contract, List.mem_filter.mpr ⟨hmem, ?_⟩, rfl⟩
    cases hp : (getUpgradePlan nextVer mg contract).isPartialUpgrade with
    | false => simp
    | true =>
      have : ¬ (cur ≠ contract) := fun hd => hcond ⟨hp, hd⟩
      simp [this]

/-- When every group's core metadata yields some contract, Plan succeeds with
the concatenation of the per-group surviving plans. -/
theorem planAux_eq_flatMap (info : Provider → CoreUpgradeInfo)
    (nextVer : Provider → String → String) (groups : List ManagementGroup)
    (ret : List UpgradePlan)
    (h : ∀ k ∈ groups, (info k.coreProvider).contractsForUpgrade ≠ []) :
    planAux info nextVer groups ret =
      Except.ok (ret ++ groups.flatMap (fun k =>
        planContracts nextVer k (info k.coreProvider).currentContract
          (info k.coreProvider).contractsForUpgrade)) := by
  induction groups generalizing ret with
  | nil => simp [planAux]
  | cons k ks ih =>
    have hk : (info k.coreProvider).contractsForUpgrade ≠ [] :=
      h k (List.mem_cons_self k ks)
    have hne : (info k.coreProvider).contractsForUpgrade.isEmpty = false := by
      cases hc : (info k.coreProvider).contractsForUpgrade with
      | nil => exact absurd hc hk
      | cons a l => rfl
    rw [show planAux info nextVer (k :: ks) ret =
        planAux info nextVer ks
          (ret ++ planContracts nextVer k (info k.coreProvider).currentContract
            (info k.coreProvider).contractsForUpgrade) by simp [planAux, hne]]
    rw [ih _ (fun j hj => h j (List.mem_cons_of_mem k hj))]
    simp

/-- Every plan a group's loop emits names that group's core provider. -/
theorem mem_planContracts_coreProvider (nextVer : Provider → String → String)
    (mg : ManagementGroup) (cur : String) (contracts : List String)
    (p : UpgradePlan) (h : p ∈ planContracts nextVer mg cur contracts) :
    p.coreProvider = mg.coreProvider := by
  rw [planContracts_eq_filter] at h
  rcases List.mem_map.mp h with ⟨c, _, heq⟩
  rw [← heq]
  rfl

/-- C1: for every management group among the ones Plan walks (their core
instance names distinct, every group's metadata yielding some contract), the
plan built for the group and a candidate contract is among the returned plans
exactly when it is not both partial (some item has an empty nextVersion) and
a switch away from the group's current contract; in particular a plan for the
current contract is returned even when some of its items are empty, and a
partial plan for a different contract is discarded. -/
theorem Plan_drops_partial_contract_switch
    (info : Provider → CoreUpgradeInfo) (nextVer : Provider → String → String)
    (groups : List ManagementGroup) (mg : ManagementGroup) (contract : String)
    (hmg : mg ∈ groups)
    (hcores : (groups.map (fun k => k.coreProvider.instanceName)).Nodup)
    (hnonempty : ∀ k ∈ groups, (info k.coreProvider).contractsForUpgrade ≠ [])
    (hmem : contract ∈ (info mg.coreProvider).contractsForUpgrade) :
    ∃ plans, Plan info nextVer groups = Except.ok plans ∧
      (getUpgradePlan nextVer mg contract ∈ plans ↔
        ¬((getUpgradePlan nextVer mg contract).isPartialUpgrade = true ∧
          (info mg.coreProvider).currentContract ≠ contract)) := by
  have hplan : Plan info nextVer groups =
      Except.ok (groups.flatMap (fun k =>
        planContracts nextVer k (info k.coreProvider).currentContract
          (info k.coreProvider).contractsForUpgrade)) := by
    unfold Plan
    rw [planAux_eq_flatMap info nextVer groups [] hnonempty]
    simp
  refine ⟨_, hplan, ?_⟩
  rw [← mem_planContracts_iff nextVer mg (info mg.coreProvider).currentContract
    (info mg.coreProvider).contractsForUpgrade contract hmem]
  constructor
  · intro hin
    rcases List.mem_flatMap.mp hin with ⟨k, hk, hpk⟩
    have hcore : (getUpgradePlan nextVer mg contract).coreProvider =
        k.coreProvider := mem_planContracts_coreProvider nextVer k _ _ _ hpk
    have hkeq : k = mg := by
      refine List.inj_on_of_nodup_map hcores hk hmg ?_
      have : mg.coreProvider = k.coreProvider := hcore
      rw [this]
    subst hkeq
    exact hpk
  · intro hin
    exact List.mem_flatMap.mpr ⟨mg, hmg, hin⟩

/-- C1 witness: scenario S3, where the v1alpha3 plan is fully partial (no
provider has a newer v1alpha3 release) yet is returned because it keeps the
current contract. -/
theorem Plan_drops_partial_contract_switch_witness :
    (("v1alpha3" : String) ∈ (infoS3 groupS3.coreProvider).contractsForUpgrade) ∧
    (∃ plans, Plan infoS3 nextVerS3 [groupS3] = Except.ok plans ∧
      (getUpgradePlan nextVerS3 groupS3 "v1alpha3" ∈ plans ↔
        ¬((getUpgradePlan nextVerS3 groupS3 "v1alpha3").isPartialUpgrade = true ∧
          (infoS3 groupS3.coreProvider).currentContract ≠ "v1alpha3"))) :=
  ⟨by decide,
    Plan_drops_partial_contract_switch infoS3 nextVerS3 [groupS3] groupS3 "v1alpha3"
      (by decide) (by decide) (by decide) (by decide)⟩

/-- When every item resolves to a group member whose target-version contract
is the target contract, the first createCustomPlan loop succeeds and returns
the items with the watchedNamespace carried over. -/
theorem customPlanItems_all_ok (contractOf : Provider → String → Except UpgraderError String)
    (mg : ManagementGroup) (tc : String) (items : List UpgradeItem)
    (h : ∀ i ∈ items, ∃ q, mg.getProviderByInstanceName i.instanceName = some q ∧
      contractOf q i.nextVersion = Except.ok tc) :
    customPlanItems contractOf mg tc items =
      Except.ok (items.map (withCarriedNamespace mg)) := by
  induction items with
  | nil => rfl
  | cons item rest ih =>
    rcases h item (List.mem_cons_self item rest) with ⟨q, hq, hqc⟩
    have hrest := ih (fun i hi => h i (List.mem_cons_of_mem item hi))
    simp [customPlanItems, hq, hqc, hrest, withCarriedNamespace]

/-- The first createCustomPlan loop stops at the first item whose
target-version contract differs from the target contract, with the
contract-mismatch error naming that item. -/
theorem customPlanItems_first_mismatch
    (contractOf : Provider → String → Except UpgraderError String)
    (mg : ManagementGroup) (tc : String)
    (good : List UpgradeItem) (item : UpgradeItem) (rest : List UpgradeItem)
    (p : Provider) (c : String)
    (hgood : ∀ i ∈ good, ∃ q, mg.getProviderByInstanceName i.instanceName = some q ∧
      contractOf q i.nextVersion = Except.ok tc)
    (hp : mg.getProviderByInstanceName item.instanceName = some p)
    (hc : contractOf p item.nextVersion = Except.ok c)
    (hne : c ≠ tc) :
    customPlanItems contractOf mg tc (good ++ item :: rest) =
      Except.error (.contractMismatch item.instanceName c tc) := by
  induction good with
  | nil => simp [customPlanItems, hp, hc, hne]
  | cons gitem grest ih =>
    rcases hgood gitem (List.mem_cons_self gitem grest) with ⟨q, hq, hqc⟩
    have htail := ih (fun i hi => hgood i (List.mem_cons_of_mem gitem hi))
    simp [customPlanItems, hq, hqc, htail]

/-- When every group member outside the upgrade set already supports the
target contract, the lagging check passes. -/
theorem checkLaggingProviders_all_ok
    (contractOf : Provider → String → Except UpgraderError String)
    (tc : String) (names : List String) (ps : List Provider)
    (h : ∀ p ∈ ps, p.instanceName ∉ names → contractOf p p.version = Except.ok tc) :
    checkLaggingProviders contractOf tc names ps = Except.ok () := by
  induction ps with
  | nil => rfl
  | cons p rest ih =>
    have htail := ih (fun q hq => h q (List.mem_cons_of_mem p hq))
    by_cases hmem : p.instanceName ∈ names
    · simp [checkLaggingProviders, hmem, htail]
    · have hc := h p (List.mem_cons_self p rest) hmem
      simp [checkLaggingProviders, hmem, hc, htail]

/-- The lagging check stops at the first group member outside the upgrade set
whose current contract differs from the target contract, with the
contract-lagging error naming that member. -/
theorem checkLaggingProviders_first_lagging
    (contractOf : Provider → String → Except UpgraderError String)
    (tc : String) (names : List String)
    (pre : List Provider) (p : Provider) (rest : List Provider) (c : String)
    (hpre : ∀ q ∈ pre, q.instanceName ∉ names → contractOf q q.version = Except.ok tc)
    (hmem : p.instanceName ∉ names)
    (hc : contractOf p p.version = Except.ok c) (hne : c ≠ tc) :
    checkLaggingProviders contractOf tc names (pre ++ p :: rest) =
      Except.error (.contractLagging p.instanceName c tc) := by
  induction pre with
  | nil => simp [checkLaggingProviders, hmem, hc, hne]
  | cons q qs ih =>
    have htail := ih (fun r hr => hpre r (List.mem_cons_of_mem q hr))
    by_cases hqmem : q.instanceName ∈ names
    · simp [checkLaggingProviders, hqmem, htail]
    · have hq := hpre q (List.mem_cons_self q qs) hqmem
      simp [checkLaggingProviders, hqmem, hq, htail]

/-- C6: createCustomPlan derives the target contract from the core provider's
target version (the nextVersion of the first item naming the core provider,
its current version when no item does), fails with the contract-mismatch
error at the first supplied item whose target version supports a different
contract, and on success constructs the plan whose items carry the
watchedNamespace of the matching inventory record. -/
theorem createCustomPlan_contract_consistency
    (contractOf : Provider → String → Except UpgraderError String)
    (mg : ManagementGroup) (upgradeItems : List UpgradeItem) (tc : String)
    (htc : contractOf mg.coreProvider (targetCoreVersion mg upgradeItems) =
      Except.ok tc) :
    ((∀ i ∈ upgradeItems, i.instanceName ≠ mg.coreProvider.instanceName) →
      targetCoreVersion mg upgradeItems = mg.coreProvider.version) ∧
    (∀ i, upgradeItems.find?
        (fun j => decide (j.instanceName = mg.coreProvider.instanceName)) = some i →
      targetCoreVersion mg upgradeItems = i.nextVersion) ∧
    (∀ good item rest p c, upgradeItems = good ++ item :: rest →
      (∀ i ∈ good, ∃ q, mg.getProviderByInstanceName i.instanceName = some q ∧
        contractOf q i.nextVersion = Except.ok tc) →
      mg.getProviderByInstanceName item.instanceName = some p →
      contractOf p item.nextVersion = Except.ok c → c ≠ tc →
      createCustomPlan contractOf mg upgradeItems =
        Except.error (.contractMismatch item.instanceName c tc)) ∧
    ((∀ i ∈ upgradeItems, ∃ q, mg.getProviderByInstanceName i.instanceName = some q ∧
        contractOf q i.nextVersion = Except.ok tc) →
      (∀ q ∈ mg.providers,
        q.instanceName ∉ upgradeItems.map (fun i => i.instanceName) →
        contractOf q q.version = Except.ok tc) →
      createCustomPlan contractOf mg upgradeItems =
        Except.ok { contract := tc, coreProvider := mg.coreProvider,
                    providers := upgradeItems.map (withCarriedNamespace mg) }) ∧
    (∀ item p, mg.getProviderByInstanceName item.instanceName = some p →
      (withCarriedNamespace mg item).provider.watchedNamespace =
        p.watchedNamespace) := by
  refine ⟨?_, ?_, ?_, ?_, ?_⟩
  · intro hnone
    unfold targetCoreVersion
    have : upgradeItems.find?
        (fun j => decide (j.instanceName = mg.coreProvider.instanceName)) = none := by
      rw [List.find?_eq_none]
      intro i hi
      simpa using hnone i hi
    rw [this]
  · intro i hfind
    unfold targetCoreVersion
    rw [hfind]
  · intro good item rest p c hsplit hgood hp hc hne
    subst hsplit
    unfold createCustomPlan
    have h1 := customPlanItems_first_mismatch contractOf mg tc good item rest p c
      hgood hp hc hne
    simp only [htc, h1]
  · intro hitems hlag
    unfold createCustomPlan
    have h1 := customPlanItems_all_ok contractOf mg tc upgradeItems hitems
    have h2 := checkLaggingProviders_all_ok contractOf tc
      (upgradeItems.map (fun i => i.instanceName)) mg.providers hlag
    simp only [htc, h1, h2]
  · intro item p hp
    unfold withCarriedNamespace
    rw [hp]

/-- C6 witness: scenario S4 with the core provider requested at v0.4.1, so
the target contract is v1alpha4. -/
theorem createCustomPlan_contract_consistency_witness :
    (contractOfS3 groupS3.coreProvider (targetCoreVersion groupS3 itemsS4) =
      Except.ok "v1alpha4") ∧
    (((∀ i ∈ itemsS4, i.instanceName ≠ groupS3.coreProvider.instanceName) →
        targetCoreVersion groupS3 itemsS4 = groupS3.coreProvider.version) ∧
      (∀ i, itemsS4.find?
          (fun j => decide (j.instanceName = groupS3.coreProvider.instanceName)) =
            some i →
        targetCoreVersion groupS3 itemsS4 = i.nextVersion) ∧
      (∀ good item rest p c, itemsS4 = good ++ item :: rest →
        (∀ i ∈ good, ∃ q, groupS3.getProviderByInstanceName i.instanceName = some q ∧
          contractOfS3 q i.nextVersion = Except.ok "v1alpha4") →
        groupS3.getProviderByInstanceName item.instanceName = some p →
        contractOfS3 p item.nextVersion = Except.ok c → c ≠ "v1alpha4" →
        createCustomPlan contractOfS3 groupS3 itemsS4 =
          Except.error (.contractMismatch item.instanceName c "v1alpha4")) ∧
      ((∀ i ∈ itemsS4, ∃ q, groupS3.getProviderByInstanceName i.instanceName = some q ∧
          contractOfS3 q i.nextVersion = Except.ok "v1alpha4") →
        (∀ q ∈ groupS3.providers,
          q.instanceName ∉ itemsS4.map (fun i => i.instanceName) →
          contractOfS3 q q.version = Except.ok "v1alpha4") →
        createCustomPlan contractOfS3 groupS3 itemsS4 =
          Except.ok { contract := "v1alpha4", coreProvider := groupS3.coreProvider,
                      providers := itemsS4.map (withCarriedNamespace groupS3) }) ∧
      (∀ item p, groupS3.getProviderByInstanceName item.instanceName = some p →
        (withCarriedNamespace groupS3 item).provider.watchedNamespace =
          p.watchedNamespace)) :=
  ⟨rfl, createCustomPlan_contract_consistency contractOfS3 groupS3 itemsS4 "v1alpha4" rfl⟩

/-- C7: given that the target contract resolves and every supplied item
supports it, ApplyCustomPlan fails with the contract-lagging error naming the
first group member outside the upgrade set whose current version supports a
different contract; when every member outside the set already supports the
target contract, the custom plan is built successfully. -/
theorem applyCustomPlan_contract_lagging {E : Type}
    (contractOf : Provider → String → Except UpgraderError String)
    (fetch : UpgradeItem → Except E Unit)
    (del : Provider → Bool → Bool → Except E Unit)
    (install : UpgradeItem → Except E Unit)
    (mg : ManagementGroup) (upgradeItems : List UpgradeItem) (tc : String)
    (htc : contractOf mg.coreProvider (targetCoreVersion mg upgradeItems) =
      Except.ok tc)
    (hitems : ∀ i ∈ upgradeItems, ∃ q,
      mg.getProviderByInstanceName i.instanceName = some q ∧
      contractOf q i.nextVersion = Except.ok tc) :
    (∀ pre p rest c, mg.providers = pre ++ p :: rest →
      (∀ q ∈ pre, q.instanceName ∉ upgradeItems.map (fun i => i.instanceName) →
        contractOf q q.version = Except.ok tc) →
      p.instanceName ∉ upgradeItems.map (fun i => i.instanceName) →
      contractOf p p.version = Except.ok c → c ≠ tc →
      applyCustomPlan contractOf fetch del install mg upgradeItems =
        Except.error (.contractLagging p.instanceName c tc)) ∧
    ((∀ q ∈ mg.providers,
        q.instanceName ∉ upgradeItems.map (fun i => i.instanceName) →
        contractOf q q.version = Except.ok tc) →
      createCustomPlan contractOf mg upgradeItems =
        Except.ok { contract := tc, coreProvider := mg.coreProvider,
                    providers := upgradeItems.map (withCarriedNamespace mg) }) := by
  constructor
  · intro pre p rest c hsplit hpre hmem hc hne
    unfold applyCustomPlan createCustomPlan
    have h1 := customPlanItems_all_ok contractOf mg tc upgradeItems hitems
    have h2 := checkLaggingProviders_first_lagging contractOf tc
      (upgradeItems.map (fun i => i.instanceName)) pre p rest c hpre hmem hc hne
    rw [hsplit]
    simp only [htc, h1, h2]
  · intro hlag
    exact (createCustomPlan_contract_consistency contractOf mg upgradeItems tc
      htc).2.2.2.1 hitems hlag

/-- C7 witness: scenario S4, where the infrastructure provider is outside the
requested upgrade set and still supports only v1alpha3 while the group moves
to v1alpha4; ApplyCustomPlan fails with the lagging error naming it. -/
theorem applyCustomPlan_contract_lagging_witness :
    applyCustomPlan (E := Unit) contractOfS3 (fun _ => Except.ok ())
      (fun _ _ _ => Except.ok ()) (fun _ => Except.ok ()) groupS3 itemsS4 =
        Except.error (.contractLagging infraS3.instanceName "v1alpha3" "v1alpha4") := by
  have h := applyCustomPlan_contract_lagging (E := Unit) contractOfS3
    (fun _ => Except.ok ()) (fun _ _ _ => Except.ok ())
    (fun _ => Except.ok ()) groupS3 itemsS4 "v1alpha4" rfl
    (fun i hi => by
      rcases List.mem_cons.mp hi with h1 | hi2
      · exact ⟨coreS3, by rw [h1]; rfl, by rw [h1]; rfl⟩
      · rcases List.mem_cons.mp hi2 with h2 | h3
        · exact ⟨bootstrapS3, by rw [h2]; rfl, by rw [h2]; rfl⟩
        · exact absurd h3 (List.not_mem_nil i))
  exact h.1 [coreS3, bootstrapS3] infraS3 [] "v1alpha3" rfl
    (fun q hq hqn => by
      rcases List.mem_cons.mp hq with h1 | hq2
      · subst h1; exact absurd (by decide) hqn
      · rcases List.mem_cons.mp hq2 with h2 | h3
        · subst h2; exact absurd (by decide) hqn
        · exact absurd h3 (List.not_mem_nil q))
    (by decide) rfl (by decide)

/-- Boolean any over the node UIDs is membership in uidsOf. -/
theorem any_uid_eq_true_iff (g : List GNode) (u : String) :
    (g.any (fun n => decide (n.identity.uid = u)) = true) ↔ u ∈ uidsOf g := by
  simp only [List.any_eq_true, decide_eq_true_eq, uidsOf, List.mem_map]

/-- findUid misses exactly the UIDs outside uidsOf. -/
theorem findUid_eq_none_iff (g : List GNode) (u : String) :
    findUid g u = none ↔ u ∉ uidsOf g := by
  unfold findUid
  rw [List.find?_eq_none]
  simp only [decide_eq_true_eq, uidsOf, List.mem_map]
  constructor
  · rintro h ⟨n, hn, hu⟩
    exact h n hn hu
  · intro h n hn hu
    exact h ⟨n, hn, hu⟩

/-- findUid over an append looks left first. -/
theorem findUid_append (g₁ g₂ : List GNode) (u : String) :
    findUid (g₁ ++ g₂) u = (findUid g₁ u).or (findUid g₂ u) :=
  List.find?_append

/-- The UIDs of an append. -/
theorem uidsOf_append (g₁ g₂ : List GNode) :
    uidsOf (g₁ ++ g₂) = uidsOf g₁ ++ uidsOf g₂ := by
  simp [uidsOf]

/-- findUid commutes with a UID-preserving map. -/
theorem findUid_map_uid_preserving (g : List GNode) (φ : GNode → GNode)
    (hφ : ∀ n, (φ n).identity.uid = n.identity.uid) (u : String) :
    findUid (g.map φ) u = (findUid g u).map φ := by
  induction g with
  | nil => rfl
  | cons n rest ih =>
    unfold findUid at *
    by_cases h : n.identity.uid = u
    · rw [List.map_cons, List.find?_cons_of_pos _ (by simp [hφ, h]),
        List.find?_cons_of_pos _ (by simp [h])]
      rfl
    · rw [List.map_cons, List.find?_cons_of_neg _ (by simp [hφ, h]),
        List.find?_cons_of_neg _ (by simp [h])]
      exact ih

/-- The UIDs of an upsert: unchanged when the object's UID was present,
extended by it otherwise. -/
theorem uidsOf_upsertNode (g : List GNode) (o : UObject) :
    uidsOf (upsertNode g o) =
      if o.uid ∈ uidsOf g then uidsOf g else uidsOf g ++ [o.uid] := by
  unfold upsertNode
  by_cases hm : o.uid ∈ uidsOf g
  · rw [if_pos ((any_uid_eq_true_iff g o.uid).mpr hm), if_pos hm]
    unfold uidsOf
    rw [List.map_map]
    refine List.map_congr_left ?_
    intro n _
    by_cases huid : n.identity.uid = o.uid
    · simp [Function.comp, huid, nodeForObj]
    · simp [Function.comp, huid]
  · rw [if_neg (fun h => hm ((any_uid_eq_true_iff g o.uid).mp h)), if_neg hm,
      uidsOf_append]
    rfl

/-- Membership in the UIDs of an upsert. -/
theorem mem_uidsOf_upsertNode (g : List GNode) (o : UObject) (u : String) :
    u ∈ uidsOf (upsertNode g o) ↔ u ∈ uidsOf g ∨ u = o.uid := by
  rw [uidsOf_upsertNode]
  by_cases hm : o.uid ∈ uidsOf g
  · rw [if_pos hm]
    constructor
    · exact Or.inl
    · rintro (h | h)
      · exact h
      · exact h ▸ hm
  · rw [if_neg hm]
    simp

/-- An upsert keeps the one-node-per-UID invariant. -/
theorem nodup_uidsOf_upsertNode (g : List GNode) (o : UObject)
    (h : (uidsOf g).Nodup) : (uidsOf (upsertNode g o)).Nodup := by
  rw [uidsOf_upsertNode]
  by_cases hm : o.uid ∈ uidsOf g
  · rw [if_pos hm]; exact h
  · rw [if_neg hm]
    simp [List.nodup_append, h, hm]

/-- After an upsert the object's own node is exactly nodeForObj. -/
theorem findUid_upsertNode_self (g : List GNode) (o : UObject) :
    findUid (upsertNode g o) o.uid = some (nodeForObj o) := by
  unfold upsertNode
  by_cases hm : o.uid ∈ uidsOf g
  · rw [if_pos ((any_uid_eq_true_iff g o.uid).mpr hm)]
    rw [findUid_map_uid_preserving g _
      (fun n => by by_cases huid : n.identity.uid = o.uid <;> simp [huid, nodeForObj])]
    rcases hfind : findUid g o.uid with _ | n
    · exact absurd ((findUid_eq_none_iff g o.uid).mp hfind) (fun hc => hc hm)
    · have hn : n.identity.uid = o.uid := by
        have := List.find?_some hfind
        simpa using this
      simp [hn]
  · rw [if_neg (fun h => hm ((any_uid_eq_true_iff g o.uid).mp h))]
    rw [findUid_append, (findUid_eq_none_iff g o.uid).mpr hm]
    unfold findUid
    rw [List.find?_cons_of_pos _ (by simp [nodeForObj])]
    rfl

/-- An upsert does not touch nodes with a different UID. -/
theorem findUid_upsertNode_other (g : List GNode) (o : UObject) (u : String)
    (hne : u ≠ o.uid) : findUid (upsertNode g o) u = findUid g u := by
  unfold upsertNode
  by_cases hm : o.uid ∈ uidsOf g
  · rw [if_pos ((any_uid_eq_true_iff g o.uid).mpr hm)]
    rw [findUid_map_uid_preserving g _
      (fun n => by by_cases huid : n.identity.uid = o.uid <;> simp [huid, nodeForObj])]
    rcases hfind : findUid g u with _ | n
    · rfl
    · have hn : n.identity.uid = u := by
        have := List.find?_some hfind
        simpa using this
      have : ¬ n.identity.uid = o.uid := fun hc => hne (hn ▸ hc)
      simp [this]
  · rw [if_neg (fun h => hm ((any_uid_eq_true_iff g o.uid).mp h))]
    rw [findUid_append]
    rcases hfind : findUid g u with _ | n
    · unfold findUid
      rw [List.find?_cons_of_neg _ (by simp [nodeForObj]; exact fun h => hne h.symm)]
      rfl
    · rfl

/-- Unfolding one owner reference of ensureRefNodes. -/
theorem ensureRefNodes_cons (ns : String) (r : OwnerRef) (rest : List OwnerRef)
    (g : List GNode) :
    ensureRefNodes ns (r :: rest) g =
      ensureRefNodes ns rest
        (if g.any (fun n => decide (n.identity.uid = r.uid)) then g
         else g ++ [virtualNodeForRef ns r]) := rfl

/-- Materialising owner references never touches a node that is already
found. -/
theorem findUid_ensureRefNodes_stable (ns : String) (refs : List OwnerRef)
    (g : List GNode) (u : String) (h : (findUid g u).isSome = true) :
    findUid (ensureRefNodes ns refs g) u = findUid g u := by
  induction refs generalizing g with
  | nil => rfl
  | cons r rest ih =>
    rw [ensureRefNodes_cons]
    by_cases hany : g.any (fun n => decide (n.identity.uid = r.uid)) = true
    · rw [if_pos hany]
      exact ih g h
    · rw [if_neg hany]
      have happ : findUid (g ++ [virtualNodeForRef ns r]) u = findUid g u := by
        rw [findUid_append]
        rcases hfind : findUid g u with _ | n
        · rw [hfind] at h; exact absurd h (by simp)
        · rfl
      rw [ih _ (by rw [happ]; exact h), happ]

/-- Materialising owner references only adds nodes. -/
theorem mem_uidsOf_ensureRefNodes_mono (ns : String) (refs : List OwnerRef)
    (g : List GNode) (u : String) (h : u ∈ uidsOf g) :
    u ∈ uidsOf (ensureRefNodes ns refs g) := by
  induction refs generalizing g with
  | nil => exact h
  | cons r rest ih =>
    rw [ensureRefNodes_cons]
    by_cases hany : g.any (fun n => decide (n.identity.uid = r.uid)) = true
    · rw [if_pos hany]; exact ih g h
    · rw [if_neg hany]
      exact ih _ (by rw [uidsOf_append]; exact List.mem_append_left _ h)

/-- After materialising, every reference's UID is a node of the graph. -/
theorem refUid_mem_ensureRefNodes (ns : String) (refs : List OwnerRef)
    (g : List GNode) (r : OwnerRef) (hr : r ∈ refs) :
    r.uid ∈ uidsOf (ensureRefNodes ns refs g) := by
  induction refs generalizing g with
  | nil => exact absurd hr (List.not_mem_nil r)
  | cons r0 rest ih =>
    rw [ensureRefNodes_cons]
    rcases List.mem_cons.mp hr with heq | hmem
    · subst heq
      by_cases hany : g.any (fun n => decide (n.identity.uid = r.uid)) = true
      · rw [if_pos hany]
        exact mem_uidsOf_ensureRefNodes_mono ns rest g r.uid
          ((any_uid_eq_true_iff g r.uid).mp hany)
      · rw [if_neg hany]
        refine mem_uidsOf_ensureRefNodes_mono ns rest _ r.uid ?_
        rw [uidsOf_append]
        exact List.mem_append_right _ (by simp [uidsOf, virtualNodeForRef])
    · by_cases hany : g.any (fun n => decide (n.identity.uid = r0.uid)) = true
      · rw [if_pos hany]; exact ih g hmem
      · rw [if_neg hany]; exact ih _ hmem

/-- Materialising owner references keeps the one-node-per-UID invariant. -/
theorem nodup_uidsOf_ensureRefNodes (ns : String) (refs : List OwnerRef)
    (g : List GNode) (h : (uidsOf g).Nodup) :
    (uidsOf (ensureRefNodes ns refs g)).Nodup := by
  induction refs generalizing g with
  | nil => exact h
  | cons r rest ih =>
    rw [ensureRefNodes_cons]
    by_cases hany : g.any (fun n => decide (n.identity.uid = r.uid)) = true
    · rw [if_pos hany]; exact ih g h
    · rw [if_neg hany]
      refine ih _ ?_
      rw [uidsOf_append]
      have hnm : r.uid ∉ uidsOf g := fun hc =>
        hany ((any_uid_eq_true_iff g r.uid).mpr hc)
      show (uidsOf g ++ [r.uid]).Nodup
      rw [List.nodup_append_comm]
      exact List.nodup_cons.mpr ⟨hnm, h⟩

/-- A referenced UID that was not in the graph gets a virtual node. -/
theorem ensureRefNodes_virtual (ns : String) (refs : List OwnerRef)
    (g : List GNode) (u : String) (hu : u ∉ uidsOf g)
    (hex : ∃ r ∈ refs, r.uid = u) :
    ∃ n, findUid (ensureRefNodes ns refs g) u = some n ∧ n.virtual = true := by
  induction refs generalizing g with
  | nil =>
    rcases hex with ⟨r, hr, _⟩
    exact absurd hr (List.not_mem_nil r)
  | cons r rest ih =>
    rw [ensureRefNodes_cons]
    by_cases hru : r.uid = u
    · have hany : ¬ (g.any (fun n => decide (n.identity.uid = r.uid)) = true) :=
        fun hc => hu (hru ▸ (any_uid_eq_true_iff g r.uid).mp hc)
      rw [if_neg hany]
      have hfind : findUid (g ++ [virtualNodeForRef ns r]) u =
          some (virtualNodeForRef ns r) := by
        rw [findUid_append, (findUid_eq_none_iff g u).mpr hu]
        unfold findUid
        rw [List.find?_cons_of_pos _ (by simp [virtualNodeForRef, hru])]
        rfl
      refine ⟨virtualNodeForRef ns r, ?_, rfl⟩
      rw [findUid_ensureRefNodes_stable ns rest _ u (by rw [hfind]; rfl), hfind]
    · rcases hex with ⟨r', hr', hr'u⟩
      rcases List.mem_cons.mp hr' with heq | hmem
      · exact absurd (heq ▸ hr'u) hru
      · by_cases hany : g.any (fun n => decide (n.identity.uid = r.uid)) = true
        · rw [if_pos hany]
          exact ih g hu ⟨r', hmem, hr'u⟩
        · rw [if_neg hany]
          refine ih _ ?_ ⟨r', hmem, hr'u⟩
          rw [uidsOf_append]
          intro hc
          rcases List.mem_append.mp hc with hc1 | hc2
          · exact hu hc1
          · have : u = r.uid := by simpa [uidsOf, virtualNodeForRef] using hc2
            exact hru this.symm

/-- C4: adding an object with an owner reference to a UID not yet observed
creates exactly one node for that UID, virtual and among the object's owners;
when the referenced object is added directly (before or after), that UID's
node is non-virtual, the graph keeps exactly one node per UID in both orders,
and the owner edge is present in both orders. -/
theorem addObj_virtual_node_lifecycle (g : List GNode) (o b : UObject) (r : OwnerRef)
    (hnd : (uidsOf g).Nodup) (hr : r ∈ o.ownerReferences)
    (hnew : r.uid ∉ uidsOf g) (hneq : r.uid ≠ o.uid) (hb : b.uid = r.uid) :
    (∃ n, findUid (addObj g o) r.uid = some n ∧ n.virtual = true) ∧
    (∃ m, findUid (addObj g o) o.uid = some m ∧ m.virtual = false ∧
      r.uid ∈ m.owners) ∧
    (uidsOf (addObj g o)).Nodup ∧
    (uidsOf (addObj (addObj g o) b)).Nodup ∧
    (uidsOf (addObj (addObj g b) o)).Nodup ∧
    (∃ n, findUid (addObj (addObj g o) b) r.uid = some n ∧ n.virtual = false) ∧
    (∃ n, findUid (addObj (addObj g b) o) r.uid = some n ∧ n.virtual = false) ∧
    (∃ m, findUid (addObj (addObj g b) o) o.uid = some m ∧ r.uid ∈ m.owners) := by
  have howner : r.uid ∈ (nodeForObj o).owners :=
    List.mem_map.mpr ⟨r, hr, rfl⟩
  have hfresh1 : r.uid ∉ uidsOf (upsertNode g o) := by
    rw [mem_uidsOf_upsertNode]
    rintro (hc | hc)
    · exact hnew hc
    · exact hneq hc
  have hself_o : findUid (addObj g o) o.uid = some (nodeForObj o) := by
    unfold addObj
    rw [findUid_ensureRefNodes_stable _ _ _ _
      (by rw [findUid_upsertNode_self]; rfl), findUid_upsertNode_self]
  refine ⟨?_, ?_, ?_, ?_, ?_, ?_, ?_, ?_⟩
  · exact ensureRefNodes_virtual o.nspace o.ownerReferences (upsertNode g o) r.uid
      hfresh1 ⟨r, hr, rfl⟩
  · exact ⟨nodeForObj o, hself_o, rfl, howner⟩
  · exact nodup_uidsOf_ensureRefNodes _ _ _ (nodup_uidsOf_upsertNode g o hnd)
  · exact nodup_uidsOf_ensureRefNodes _ _ _ (nodup_uidsOf_upsertNode _ b
      (nodup_uidsOf_ensureRefNodes _ _ _ (nodup_uidsOf_upsertNode g o hnd)))
  · exact nodup_uidsOf_ensureRefNodes _ _ _ (nodup_uidsOf_upsertNode _ o
      (nodup_uidsOf_ensureRefNodes _ _ _ (nodup_uidsOf_upsertNode g b hnd)))
  · refine ⟨nodeForObj b, ?_, rfl⟩
    unfold addObj
    rw [← hb]
    rw [findUid_ensureRefNodes_stable _ _ _ _
      (by rw [findUid_upsertNode_self]; rfl), findUid_upsertNode_self]
  · refine ⟨nodeForObj b, ?_, rfl⟩
    have hfound : findUid (ensureRefNodes b.nspace b.ownerReferences
        (upsertNode g b)) r.uid = some (nodeForObj b) := by
      rw [← hb]
      rw [findUid_ensureRefNodes_stable _ _ _ _
        (by rw [findUid_upsertNode_self]; rfl), findUid_upsertNode_self]
    unfold addObj
    rw [findUid_ensureRefNodes_stable _ _ _ _
      (by rw [findUid_upsertNode_other _ o r.uid hneq, hfound]; rfl),
      findUid_upsertNode_other _ o r.uid hneq, hfound]
  · refine ⟨nodeForObj o, ?_, howner⟩
    unfold addObj
    rw [findUid_ensureRefNodes_stable _ _ _ _
      (by rw [findUid_upsertNode_self]; rfl), findUid_upsertNode_self]

/-- C4 witness: scenario S6, the machine observed before (and after) its
owning MachineSet. -/
theorem addObj_virtual_node_lifecycle_witness :
    (∃ n, findUid (addObj [] machineS6) "u2" = some n ∧ n.virtual = true) ∧
    (∃ m, findUid (addObj [] machineS6) "u1" = some m ∧ m.virtual = false ∧
      ("u2" : String) ∈ m.owners) ∧
    (uidsOf (addObj [] machineS6)).Nodup ∧
    (uidsOf (addObj (addObj [] machineS6) machineSetS6)).Nodup ∧
    (uidsOf (addObj (addObj [] machineSetS6) machineS6)).Nodup ∧
    (∃ n, findUid (addObj (addObj [] machineS6) machineSetS6) "u2" = some n ∧
      n.virtual = false) ∧
    (∃ n, findUid (addObj (addObj [] machineSetS6) machineS6) "u2" = some n ∧
      n.virtual = false) ∧
    (∃ m, findUid (addObj (addObj [] machineSetS6) machineS6) "u1" = some m ∧
      ("u2" : String) ∈ m.owners) := by
  have h := addObj_virtual_node_lifecycle []
    machineS6 machineSetS6
    { apiVersion := "cluster.x-k8s.io/v1alpha3", kind := "MachineSet",
      name := "ms1", uid := "u2" }
    (by decide) (by decide) (by decide) (by decide) (by decide)
  exact h

/-- pickLongest answers none only on the empty list. -/
theorem pickLongest_eq_none_iff (l : List GNode) : pickLongest l = none ↔ l = [] := by
  induction l with
  | nil => simp [pickLongest]
  | cons n rest ih =>
    unfold pickLongest
    rcases hrest : pickLongest rest with _ | m0
    · simp
    · by_cases hlt : m0.identity.name.length > n.identity.name.length <;> simp [hlt]

/-- pickLongest returns a member of maximal name length. -/
theorem pickLongest_spec (l : List GNode) (m : GNode) (h : pickLongest l = some m) :
    m ∈ l ∧ ∀ x ∈ l, x.identity.name.length ≤ m.identity.name.length := by
  induction l generalizing m with
  | nil => cases h
  | cons n rest ih =>
    unfold pickLongest at h
    rcases hrest : pickLongest rest with _ | m0
    · rw [hrest] at h
      have hrnil : rest = [] := (pickLongest_eq_none_iff rest).mp hrest
      cases h
      subst hrnil
      exact ⟨List.mem_singleton_self n, by
        intro x hx
        rw [List.mem_singleton.mp hx]⟩
    · rw [hrest] at h
      rcases ih m0 hrest with ⟨hm0mem, hm0max⟩
      have h' : (if m0.identity.name.length > n.identity.name.length then some m0
          else some n) = some m := h
      by_cases hlt : m0.identity.name.length > n.identity.name.length
      · rw [if_pos hlt] at h'
        cases h'
        refine ⟨List.mem_cons_of_mem n hm0mem, ?_⟩
        intro x hx
        rcases List.mem_cons.mp hx with hxe | hxm
        · subst hxe; exact Nat.le_of_lt hlt
        · exact hm0max x hxm
      · rw [if_neg hlt] at h'
        cases h'
        refine ⟨List.mem_cons_self n rest, ?_⟩
        intro x hx
        rcases List.mem_cons.mp hx with hxe | hxm
        · subst hxe; exact Nat.le_refl _
        · exact Nat.le_trans (hm0max x hxm) (Nat.le_of_not_lt hlt)

/-- Two strings followed by a dash and a suffix that agree, with name parts of
equal length, have equal name parts. -/
theorem append_dash_suffix_inj (a b s1 s2 : String)
    (h : a ++ "-" ++ s1 = b ++ "-" ++ s2) (hlen : a.length = b.length) : a = b := by
  have hd : ((a ++ "-") ++ s1).data = ((b ++ "-") ++ s2).data :=
    congrArg String.data h
  rw [String.data_append, String.data_append, String.data_append,
    String.data_append] at hd
  rw [List.append_assoc, List.append_assoc] at hd
  exact String.ext (List.append_inj hd hlen).1

/-- Membership in matchingClusters spelled out: a cluster node of the graph in
the secret's namespace whose name plus a dash plus a configured suffix is the
secret's name. -/
theorem mem_matchingClusters_iff (g : List GNode) (n c : GNode) :
    c ∈ matchingClusters g n ↔ (c ∈ g ∧ c.isCluster = true ∧
      c.identity.nspace = n.identity.nspace ∧
      ∃ sfx ∈ softOwnerSuffixes,
        n.identity.name = c.identity.name ++ "-" ++ sfx) := by
  unfold matchingClusters clusterMatchesSecret
  rw [List.mem_filter]
  simp only [Bool.and_eq_true, decide_eq_true_eq, List.any_eq_true]

/-- C3: after setSoftOwnership, a secret named cluster-name dash configured
suffix is soft-owned by the matching cluster of the same namespace; matching
is greedy on the longest cluster name (with cluster names unique per
namespace the longest matching cluster is the one soft owner gained); a
secret matching no cluster, or a non-secret node, is left unchanged. -/
theorem setSoftOwnership_longest_match (g : List GNode)
    (hns : ∀ c ∈ g, ∀ c' ∈ g, c.isCluster = true → c'.isCluster = true →
      c.identity.nspace = c'.identity.nspace →
      c.identity.name = c'.identity.name → c = c') :
    (setSoftOwnership g = g.map (applySoftOwnership g)) ∧
    (∀ n c, c ∈ matchingClusters g n ↔ (c ∈ g ∧ c.isCluster = true ∧
      c.identity.nspace = n.identity.nspace ∧
      ∃ sfx ∈ softOwnerSuffixes,
        n.identity.name = c.identity.name ++ "-" ++ sfx)) ∧
    (∀ n, n.isSecret = false → applySoftOwnership g n = n) ∧
    (∀ n, matchingClusters g n = [] → applySoftOwnership g n = n) ∧
    (∀ n c, n.isSecret = true → c ∈ matchingClusters g n →
      (∀ c' ∈ matchingClusters g n,
        c'.identity.name.length ≤ c.identity.name.length) →
      applySoftOwnership g n =
        { n with softOwners := n.softOwners ++ [c.identity.uid] }) := by
  refine ⟨rfl, mem_matchingClusters_iff g, ?_, ?_, ?_⟩
  · intro n hsec
    unfold applySoftOwnership
    rw [if_neg (by rw [hsec]; exact Bool.false_ne_true)]
  · intro n hempty
    unfold applySoftOwnership
    by_cases hsec : n.isSecret = true
    · rw [if_pos hsec, hempty]
      rfl
    · rw [if_neg hsec]
  · intro n c hsec hc hmax
    unfold applySoftOwnership
    rw [if_pos hsec]
    have hne : matchingClusters g n ≠ [] := fun hnil => by
      rw [hnil] at hc
      exact (List.not_mem_nil c) hc
    rcases hm : pickLongest (matchingClusters g n) with _ | m
    · exact absurd ((pickLongest_eq_none_iff _).mp hm) hne
    · rcases pickLongest_spec _ m hm with ⟨hmmem, hmmax⟩
      have hmc : m = c := by
        rcases (mem_matchingClusters_iff g n m).mp hmmem with
          ⟨hmg, hmcl, hmns, sfxm, _, hnamem⟩
        rcases (mem_matchingClusters_iff g n c).mp hc with
          ⟨hcg, hccl, hcns, sfxc, _, hnamec⟩
        have hlen : m.identity.name.length = c.identity.name.length :=
          Nat.le_antisymm (hmax m hmmem) (hmmax c hc)
        have hname : m.identity.name = c.identity.name :=
          append_dash_suffix_inj _ _ sfxm sfxc (hnamem ▸ hnamec) hlen
        exact hns m hmg c hcg hmcl hccl (hmns.trans hcns.symm) hname
      rw [hmc]

/-- C3 witness: scenario S5, clusters foo and foo-bar with the secret
foo-bar-ca: the soft owner gained is exactly the cluster foo-bar, while the
kubeconfig secret matches no cluster and gains nothing. -/
theorem setSoftOwnership_longest_match_witness :
    (applySoftOwnership graphS5 caSecretS5 =
      { caSecretS5 with softOwners := caSecretS5.softOwners ++ ["c1"] }) ∧
    (applySoftOwnership graphS5 kubeconfigSecretS5 = kubeconfigSecretS5) := by
  have h := setSoftOwnership_longest_match graphS5 (by decide)
  constructor
  · exact h.2.2.2.2 caSecretS5 clusterS5 (by decide) (by decide) (by decide)
  · exact h.2.2.2.1 kubeconfigSecretS5 (by decide)

/-- One expansion step only grows the set. -/
theorem subset_expandTenants (g : List GNode) (s : Finset String) :
    s ⊆ expandTenants g s :=
  Finset.subset_union_left

/-- Iterated expansion contains the start. -/
theorem subset_iterExpand (g : List GNode) (n : Nat) (s : Finset String) :
    s ⊆ iterExpand g n s := by
  induction n generalizing s with
  | zero => exact Finset.Subset.refl s
  | succ n ih => exact (subset_expandTenants g s).trans (ih (expandTenants g s))

/-- A step that adds nothing is the identity. -/
theorem expandTenants_eq_of_subset (g : List GNode) (s : Finset String)
    (h : expandTenants g s ⊆ s) : expandTenants g s = s :=
  Finset.Subset.antisymm h (subset_expandTenants g s)

/-- Iteration from a fixed point stays there. -/
theorem iterExpand_fix (g : List GNode) (n : Nat) (s : Finset String)
    (h : expandTenants g s = s) : iterExpand g n s = s := by
  induction n with
  | zero => rfl
  | succ n ih =>
    show iterExpand g n (expandTenants g s) = s
    rw [h]
    exact ih

/-- A non-closing step strictly grows the node part of the set. -/
theorem card_lt_of_not_subset (g : List GNode) (s : Finset String)
    (h : ¬ expandTenants g s ⊆ s) :
    (s ∩ nodeUidSet g).card < (expandTenants g s ∩ nodeUidSet g).card := by
  rcases Finset.not_subset.mp h with ⟨x, hxe, hxs⟩
  have hxu : x ∈ nodeUidSet g := by
    unfold expandTenants at hxe
    rcases Finset.mem_union.mp hxe with hx1 | hx2
    · exact absurd hx1 hxs
    · exact (Finset.mem_filter.mp hx2).1
  apply Finset.card_lt_card
  rw [Finset.ssubset_def]
  constructor
  · exact Finset.inter_subset_inter (subset_expandTenants g s) (Finset.Subset.refl _)
  · intro hsub
    exact hxs (Finset.mem_inter.mp (hsub (Finset.mem_inter.mpr ⟨hxe, hxu⟩))).1

/-- Each iteration either reaches the fixed point or has grown the node part
of the set by at least the number of steps. -/
theorem iterExpand_fixpoint_or_grows (g : List GNode) (n : Nat) (s : Finset String) :
    expandTenants g (iterExpand g n s) ⊆ iterExpand g n s ∨
      n + (s ∩ nodeUidSet g).card ≤ (iterExpand g n s ∩ nodeUidSet g).card := by
  induction n generalizing s with
  | zero =>
    right
    show 0 + (s ∩ nodeUidSet g).card ≤ (s ∩ nodeUidSet g).card
    omega
  | succ n ih =>
    by_cases hsub : expandTenants g s ⊆ s
    · left
      have hfix : expandTenants g s = s := expandTenants_eq_of_subset g s hsub
      show expandTenants g (iterExpand g n (expandTenants g s)) ⊆
        iterExpand g n (expandTenants g s)
      rw [hfix, iterExpand_fix g n s hfix]
      exact hsub
    · rcases ih (expandTenants g s) with hfix | hcard
      · left; exact hfix
      · right
        have hgrow := card_lt_of_not_subset g s hsub
        show n + 1 + (s ∩ nodeUidSet g).card ≤
          (iterExpand g n (expandTenants g s) ∩ nodeUidSet g).card
        omega

/-- The closure is closed under one more expansion: one iteration per node
UID plus one suffices. -/
theorem expandTenants_reachClosure_subset (g : List GNode) (s : Finset String) :
    expandTenants g (reachClosure g s) ⊆ reachClosure g s := by
  unfold reachClosure
  rcases iterExpand_fixpoint_or_grows g ((nodeUidSet g).card + 1) s with h | h
  · exact h
  · exfalso
    have hle : (iterExpand g ((nodeUidSet g).card + 1) s ∩ nodeUidSet g).card ≤
        (nodeUidSet g).card := Finset.card_le_card Finset.inter_subset_right
    omega

/-- An invariant holding on the start and preserved by expansion holds on the
whole iteration. -/
theorem iterExpand_invariant (g : List GNode) (P : String → Prop) (n : Nat)
    (s : Finset String) (h0 : ∀ x ∈ s, P x)
    (hstep : ∀ t : Finset String, (∀ x ∈ t, P x) → ∀ x ∈ expandTenants g t, P x) :
    ∀ x ∈ iterExpand g n s, P x := by
  induction n generalizing s with
  | zero => exact h0
  | succ n ih => exact ih (expandTenants g s) (hstep s h0)

/-- A UID with a nonempty owner list is a node of the graph. -/
theorem mem_nodeUidSet_of_ownerUids_ne_nil (g : List GNode) (a : String)
    (h : ownerUidsOf g a ≠ []) : a ∈ nodeUidSet g := by
  unfold ownerUidsOf at h
  rcases hf : findUid g a with _ | n
  · rw [hf] at h; exact absurd rfl h
  · have hna : n.identity.uid = a := by simpa using List.find?_some hf
    have hmem : n ∈ g := List.mem_of_find?_eq_some hf
    unfold nodeUidSet uidsOf
    rw [List.mem_toFinset]
    exact List.mem_map.mpr ⟨n, hmem, hna⟩

/-- A node of the graph is in the UID set. -/
theorem mem_nodeUidSet_of_mem (g : List GNode) (n : GNode) (h : n ∈ g) :
    n.identity.uid ∈ nodeUidSet g := by
  unfold nodeUidSet uidsOf
  rw [List.mem_toFinset]
  exact List.mem_map.mpr ⟨n, h, rfl⟩

/-- The breadth-first closure out of one cluster UID is exactly reflexive
reachability along owner and soft-owner edges, restricted to the graph's
nodes (the cluster UID itself always belongs to the closure). -/
theorem mem_reachClosure_singleton (g : List GNode) (c u : String) :
    u ∈ reachClosure g ({c} : Finset String) ↔
      u = c ∨ (u ∈ nodeUidSet g ∧ Relation.ReflTransGen (ownerEdge g) u c) := by
  constructor
  · intro hu
    refine iterExpand_invariant g
      (fun x => x = c ∨ (x ∈ nodeUidSet g ∧ Relation.ReflTransGen (ownerEdge g) x c))
      _ _ ?_ ?_ u hu
    · intro x hx
      exact Or.inl (Finset.mem_singleton.mp hx)
    · intro t ht x hx
      unfold expandTenants at hx
      rcases Finset.mem_union.mp hx with hx1 | hx2
      · exact ht x hx1
      · rcases Finset.mem_filter.mp hx2 with ⟨hxu, v, hvowners, hvt⟩
        right
        refine ⟨hxu, ?_⟩
        have hedge : ownerEdge g x v := hvowners
        rcases ht v hvt with hvc | ⟨_, hvreach⟩
        · exact Relation.ReflTransGen.single (hvc ▸ hedge)
        · exact Relation.ReflTransGen.head hedge hvreach
  · intro hu
    rcases hu with hc | ⟨hmem, hreach⟩
    · subst hc
      exact subset_iterExpand g _ _ (Finset.mem_singleton_self u)
    · have haux : ∀ a, Relation.ReflTransGen (ownerEdge g) a c →
          a ∈ nodeUidSet g → a ∈ reachClosure g ({c} : Finset String) := by
        intro a hr
        induction hr using Relation.ReflTransGen.head_induction_on with
        | refl =>
          intro _
          exact subset_iterExpand g _ _ (Finset.mem_singleton_self c)
        | head hstep hrest ih =>
          intro hain
          rename_i a' b'
          have hb : b' ∈ reachClosure g ({c} : Finset String) := by
            rcases Relation.ReflTransGen.cases_head hrest with hbc | ⟨w, hw, _⟩
            · subst hbc
              exact subset_iterExpand g _ _ (Finset.mem_singleton_self b')
            · refine ih (mem_nodeUidSet_of_ownerUids_ne_nil g b' ?_)
              exact List.ne_nil_of_mem hw
          refine expandTenants_reachClosure_subset g ({c} : Finset String) ?_
          unfold expandTenants
          refine Finset.mem_union.mpr (Or.inr ?_)
          refine Finset.mem_filter.mpr ⟨hain, b', hstep, hb⟩
      exact haux u hreach hmem

/-- C2: after setClusterTenants (run after setSoftOwnership resolved the soft
edges), every node's tenantClusters is exactly the set of cluster nodes
reachable upward through owners and softOwners; a cluster node is among its
own tenants; a node with no cluster ancestor keeps an empty
tenantClusters. -/
theorem setClusterTenants_tenant_closure (g : List GNode) :
    (∀ n ∈ setClusterTenants g, ∀ cuid : String,
      (cuid ∈ n.tenantClusters ↔
        ∃ cn ∈ g, cn.identity.uid = cuid ∧ cn.isCluster = true ∧
          Relation.ReflTransGen (ownerEdge g) n.identity.uid cuid)) ∧
    (∀ n ∈ setClusterTenants g, n.isCluster = true →
      n.identity.uid ∈ n.tenantClusters) ∧
    (∀ n ∈ setClusterTenants g,
      (¬ ∃ cn ∈ g, cn.isCluster = true ∧
        Relation.ReflTransGen (ownerEdge g) n.identity.uid cn.identity.uid) →
      n.tenantClusters = []) := by
  have hmain : ∀ n ∈ setClusterTenants g, ∀ cuid : String,
      (cuid ∈ n.tenantClusters ↔
        ∃ cn ∈ g, cn.identity.uid = cuid ∧ cn.isCluster = true ∧
          Relation.ReflTransGen (ownerEdge g) n.identity.uid cuid) := by
    intro n hn cuid
    rcases List.mem_map.mp hn with ⟨n0, hn0, hmap⟩
    subst hmap
    show cuid ∈ tenantsFor g n0.identity.uid ↔ _
    unfold tenantsFor
    constructor
    · intro hmem
      rcases List.mem_map.mp hmem with ⟨cn, hcn, hcnuid⟩
      rcases List.mem_filter.mp hcn with ⟨hcn1, hcn2⟩
      rcases List.mem_filter.mp hcn1 with ⟨hcng, hcncl⟩
      have hclos : n0.identity.uid ∈
          reachClosure g ({cn.identity.uid} : Finset String) :=
        of_decide_eq_true hcn2
      rcases (mem_reachClosure_singleton g cn.identity.uid n0.identity.uid).mp
        hclos with heq | ⟨_, hreach⟩
      · subst hcnuid
        exact ⟨cn, hcng, rfl, hcncl, by rw [heq]⟩
      · subst hcnuid
        exact ⟨cn, hcng, rfl, hcncl, hreach⟩
    · rintro ⟨cn, hcng, hcnuid, hcncl, hreach⟩
      subst hcnuid
      refine List.mem_map.mpr ⟨cn, ?_, rfl⟩
      refine List.mem_filter.mpr ⟨List.mem_filter.mpr ⟨hcng, hcncl⟩, ?_⟩
      refine decide_eq_true ?_
      refine (mem_reachClosure_singleton g cn.identity.uid n0.identity.uid).mpr ?_
      exact Or.inr ⟨mem_nodeUidSet_of_mem g n0 hn0, hreach⟩
  refine ⟨hmain, ?_, ?_⟩
  · intro n hn hcl
    rcases List.mem_map.mp hn with ⟨n0, hn0, hmap⟩
    refine (hmain n hn n.identity.uid).mpr ⟨n0, hn0, ?_, ?_, Relation.ReflTransGen.refl⟩
    · rw [← hmap]
    · rw [← hmap] at hcl
      exact hcl
  · intro n hn hnone
    rw [List.eq_nil_iff_forall_not_mem]
    intro cuid hmemc
    rcases (hmain n hn cuid).mp hmemc with ⟨cn, hcng, hcnuid, hcncl, hreach⟩
    exact hnone ⟨cn, hcng, hcncl, hcnuid ▸ hreach⟩

end Spec2Proof
